import Mathlib

/-!
Verification development for the goburn CPU burn tool.

Shallow embedding of:
- the dynamic worker pool of worker/pool.go (`New`, `SetWorkers`,
  `spawnWorkers`, `stopWorkers`, `GetActiveCount`, `runWorker`);
- the shared progress counter and the worker hot loop, as an explicit
  interleaving semantics over lists of events;
- the render-loop termination checks of main.go, the legacy line loop
  (part_000) and the bubbletea `handleTick` (part_001);
- the key handler `handleKeyPress` of the TUI (part_001);
- the line-mode formatter `formatHardwareStats` of main.go.

Modelling conventions:
- A Go `chan bool` stop channel (buffered, capacity 1) is modelled by an
  allocation identifier (`Nat`); the pool allocates fresh identifiers from
  the `nextCh` counter, and the field `sent` is the log of identifiers a
  stop signal has been sent on, in send order.  A send on a channel is
  modelled by appending its identifier to `sent`.
- `activeCount` is an `int32` in Go and `target` an `int`; worker counts
  are bounded by the length of `stopChannels`, so within any physically
  realizable execution (far fewer than 2^31 live goroutines and 2^64
  counter increments) Go's fixed-width arithmetic coincides with `Int` /
  `Nat` arithmetic; the embedding therefore uses `Int` and `Nat`.
- `runtime.GOMAXPROCS(target)` is a scheduler hint with no effect on the
  pool's observable state and is omitted, as the spec explicitly allows.
- The pool's `counter *uint64` field only stores a reference; the counter
  dynamics live in the interleaving semantics (`BurnSys`) below.
-/

/-! ## Worker pool state (worker/pool.go, type Pool) -/

/-- Pool state.  `stopChannels` lists the stop-channel identifiers of the
live workers in spawn order (oldest first, as the Go slice), `activeCount`
is the atomic worker counter, `nextCh` is the allocator for fresh channel
identifiers, and `sent` is the log of channels a stop signal was sent on. -/
@[ext]
structure Pool where
  stopChannels : List Nat
  activeCount : Int
  nextCh : Nat
  sent : List Nat
  deriving DecidableEq

/-- One iteration of the loop body in `stopWorkers`:
`idx := current - 1 - i; if idx >= 0 && idx < len(wp.stopChannels)
\x7b wp.stopChannels[idx] <- true; atomic.AddInt32(&wp.activeCount, -1) \x7d`. -/
def stopIterBody (current : Int) (q : Pool) (i : Nat) : Pool :=
  let idx := current - 1 - (i : Int)
  if 0 ≤ idx ∧ idx < (q.stopChannels.length : Int) then
    { q with sent := q.sent ++ [q.stopChannels.getD idx.toNat 0],
             activeCount := q.activeCount - 1 }
  else q

/-- `stopWorkers(n)` from worker/pool.go.  The Go loop runs for
`i < n && i < len(wp.stopChannels)`; the loop body never modifies
`stopChannels`, so the iteration count is fixed at `min n len` and the
loop is a fold over `List.range` of that count.  Afterwards the slice is
truncated to the new count when `0 <= newCount < len(wp.stopChannels)`. -/
def stopWorkers (n : Int) (p : Pool) : Pool :=
  let current := p.activeCount
  let p1 := (List.range (min n (p.stopChannels.length : Int)).toNat).foldl
    (stopIterBody current) p
  if 0 ≤ p1.activeCount ∧ p1.activeCount < (p1.stopChannels.length : Int) then
    { p1 with stopChannels := p1.stopChannels.take p1.activeCount.toNat }
  else p1

/-- `spawnWorkers(n)` from worker/pool.go: `n` times, allocate a fresh
buffered stop channel, append it to `stopChannels` and increment
`activeCount` (the spawned goroutine itself lives in `BurnSys` below). -/
def spawnWorkers : Nat → Pool → Pool
  | 0, p => p
  | n + 1, p =>
      spawnWorkers n { p with
        stopChannels := p.stopChannels ++ [p.nextCh],
        nextCh := p.nextCh + 1,
        activeCount := p.activeCount + 1 }

/-- `SetWorkers(target)` from worker/pool.go: compare the target with the
loaded `activeCount` and spawn or stop the difference.  The trailing
`runtime.GOMAXPROCS(target)` hint is omitted (no observable pool state). -/
def SetWorkers (target : Int) (p : Pool) : Pool :=
  let current := p.activeCount
  if current < target then spawnWorkers (target - current).toNat p
  else if target < current then stopWorkers (current - target) p
  else p

/-- `GetActiveCount()` from worker/pool.go. -/
def GetActiveCount (p : Pool) : Int := p.activeCount

/-- The pool literal in `New` before the initial resize:
empty channel slice and zero active count. -/
def emptyPool : Pool := ⟨[], 0, 0, []⟩

/-- `New(counter, initialWorkers)` from worker/pool.go: construct the empty
pool and synchronously call `SetWorkers(initialWorkers)`. -/
def New (initialWorkers : Int) : Pool := SetWorkers initialWorkers emptyPool

/-- Pool states reachable by construction followed by any sequence of
resize calls. -/
inductive PoolReachable : Pool → Prop
  | init (n : Int) : PoolReachable (New n)
  | resize (t : Int) {p : Pool} : PoolReachable p → PoolReachable (SetWorkers t p)

/-- The pool bookkeeping invariant: the active count equals the number of
stop channels held; the held channels are pairwise distinct, all allocated
below `nextCh`, and none of them has ever been signalled; every signalled
channel was allocated below `nextCh` and was signalled exactly once. -/
structure PoolInv (p : Pool) : Prop where
  hLen : p.activeCount = (p.stopChannels.length : Int)
  hNodup : p.stopChannels.Nodup
  hFresh : ∀ c ∈ p.stopChannels, c < p.nextCh
  hSentFresh : ∀ c ∈ p.sent, c < p.nextCh
  hNotSent : ∀ c ∈ p.stopChannels, c ∉ p.sent
  hSentNodup : p.sent.Nodup

/-! ## Characterization of spawn and stop -/

theorem spawnWorkers_spec (n : Nat) (p : Pool) :
    spawnWorkers n p =
      { stopChannels := p.stopChannels ++ (List.range n).map (p.nextCh + ·),
        activeCount := p.activeCount + n,
        nextCh := p.nextCh + n,
        sent := p.sent } := by
  induction n generalizing p with
  | zero => simp [spawnWorkers]
  | succ k ih =>
      rw [spawnWorkers, ih]
      have hmap : (List.range (k + 1)).map (p.nextCh + ·) =
          p.nextCh :: (List.range k).map ((p.nextCh + 1) + ·) := by
        rw [List.range_succ_eq_map, List.map_cons, List.map_map]
        simp only [Nat.add_zero, List.cons.injEq, true_and]
        congr 1
        funext i
        simp only [Function.comp_apply]
        omega
      rw [hmap]
      simp only [Pool.mk.injEq]
      refine ⟨by simp, by push_cast; ring, by omega, trivial⟩

theorem stopFold_spec (p : Pool) (m : Nat) (hm : m ≤ p.stopChannels.length)
    (hLen : p.activeCount = (p.stopChannels.length : Int)) :
    (List.range m).foldl (stopIterBody p.activeCount) p =
      { p with
        activeCount := p.activeCount - m,
        sent := p.sent ++
          (p.stopChannels.drop (p.stopChannels.length - m)).reverse } := by
  induction m with
  | zero => simp
  | succ k ih =>
      rw [List.range_succ, List.foldl_append, ih (by omega)]
      have hk : k < p.stopChannels.length := by omega
      have hidx : (0 : Int) ≤ p.activeCount - 1 - (k : Int) ∧
          p.activeCount - 1 - (k : Int) < (p.stopChannels.length : Int) := by
        constructor <;> omega
      have htoNat : (p.activeCount - 1 - (k : Int)).toNat =
          p.stopChannels.length - 1 - k := by omega
      have hlt : p.stopChannels.length - 1 - k < p.stopChannels.length := by omega
      have hdrop : p.stopChannels.drop (p.stopChannels.length - (k + 1)) =
          p.stopChannels.get ⟨p.stopChannels.length - 1 - k, hlt⟩ ::
            p.stopChannels.drop (p.stopChannels.length - k) := by
        have h1 : p.stopChannels.length - (k + 1) = p.stopChannels.length - 1 - k := by
          omega
        have h2 : p.stopChannels.length - k = (p.stopChannels.length - 1 - k) + 1 := by
          omega
        rw [h1, h2]
        exact List.drop_eq_getElem_cons hlt
      simp only [List.foldl_cons, List.foldl_nil, stopIterBody]
      rw [if_pos hidx]
      ext
      · simp
      · simp; omega
      · simp
      · simp only [htoNat, hdrop, List.reverse_cons, List.append_assoc]
        rw [List.getD_eq_getElem _ _ hlt]
        simp

/-- Full characterization of `stopWorkers` on a pool satisfying the length
invariant: with `k = min n len` (the number of loop iterations that fire),
the last `k` channels are signalled in LIFO order, the active count drops
to `len - k`, and the channel slice is truncated to its first `len - k`
entries. -/
theorem stopWorkers_spec (n : Int) (p : Pool) (k : Nat)
    (hk : k = (min n (p.stopChannels.length : Int)).toNat)
    (hLen : p.activeCount = (p.stopChannels.length : Int)) :
    stopWorkers n p =
      { stopChannels := p.stopChannels.take (p.stopChannels.length - k),
        activeCount := ((p.stopChannels.length - k : Nat) : Int),
        nextCh := p.nextCh,
        sent := p.sent ++
          (p.stopChannels.drop (p.stopChannels.length - k)).reverse } := by
  have hkle : k ≤ p.stopChannels.length := by omega
  rw [stopWorkers]
  simp only [← hk]
  rw [stopFold_spec p k hkle hLen]
  by_cases h0 : k = 0
  · subst h0
    rw [if_neg]
    · simp only [Pool.mk.injEq]
      refine ⟨by simp, by omega, trivial, by simp⟩
    · simp only [not_and, not_lt]
      intro _
      simp
      omega
  · rw [if_pos]
    · simp only [Pool.mk.injEq]
      have htn : (p.activeCount - (k : Int)).toNat = p.stopChannels.length - k := by
        omega
      refine ⟨by rw [htn], by omega, trivial, trivial⟩
    · constructor
      · simp; omega
      · simp; omega

/-! ## Invariant preservation -/

theorem inv_emptyPool : PoolInv emptyPool := by
  constructor <;> simp [emptyPool]

theorem inv_spawnWorkers (n : Nat) (p : Pool) (h : PoolInv p) :
    PoolInv (spawnWorkers n p) := by
  rw [spawnWorkers_spec]
  have hnew : ∀ c ∈ (List.range n).map (p.nextCh + ·),
      p.nextCh ≤ c ∧ c < p.nextCh + n := by
    intro c hc
    simp only [List.mem_map, List.mem_range] at hc
    obtain ⟨i, hi, rfl⟩ := hc
    omega
  constructor
  · simp only [List.length_append, List.length_map, List.length_range]
    have := h.hLen
    push_cast
    omega
  · rw [List.nodup_append]
    refine ⟨h.hNodup, ?_, ?_⟩
    · exact (List.nodup_range n).map (fun a b hab => by omega)
    · intro c hc hc2
      exact absurd (h.hFresh c hc) (by have := (hnew c hc2).1; omega)
  · intro c hc
    rcases List.mem_append.mp hc with hc | hc
    · have := h.hFresh c hc
      dsimp only
      omega
    · exact (hnew c hc).2
  · intro c hc
    have := h.hSentFresh c hc
    dsimp only
    omega
  · intro c hc
    rcases List.mem_append.mp hc with hc | hc
    · exact h.hNotSent c hc
    · intro hsent
      have := h.hSentFresh c hsent
      have := (hnew c hc).1
      omega
  · exact h.hSentNodup

theorem inv_stopWorkers (n : Int) (p : Pool) (h : PoolInv p) :
    PoolInv (stopWorkers n p) := by
  rw [stopWorkers_spec n p _ rfl h.hLen]
  set k := (min n (p.stopChannels.length : Int)).toNat with hk
  have hsplit : p.stopChannels.take (p.stopChannels.length - k) ++
      p.stopChannels.drop (p.stopChannels.length - k) = p.stopChannels :=
    List.take_append_drop _ _
  have hnd := h.hNodup
  rw [← hsplit, List.nodup_append] at hnd
  obtain ⟨hndTake, hndDrop, hdisj⟩ := hnd
  have hTakeSub : ∀ c ∈ p.stopChannels.take (p.stopChannels.length - k),
      c ∈ p.stopChannels := fun c hc => (List.take_sublist _ _).subset hc
  have hDropSub : ∀ c ∈ p.stopChannels.drop (p.stopChannels.length - k),
      c ∈ p.stopChannels := fun c hc => (List.drop_sublist _ _).subset hc
  constructor
  · simp only [List.length_take]
    omega
  · exact hndTake
  · intro c hc
    exact h.hFresh c (hTakeSub c hc)
  · intro c hc
    rcases List.mem_append.mp hc with hc | hc
    · exact h.hSentFresh c hc
    · exact h.hFresh c (hDropSub c (List.mem_reverse.mp hc))
  · intro c hc
    rw [List.mem_append, List.mem_reverse]
    push_neg
    exact ⟨h.hNotSent c (hTakeSub c hc), hdisj hc⟩
  · rw [List.nodup_append]
    refine ⟨h.hSentNodup, List.nodup_reverse.mpr hndDrop, ?_⟩
    intro c hc hc2
    exact h.hNotSent c (hDropSub c (List.mem_reverse.mp hc2)) hc

theorem inv_SetWorkers (t : Int) (p : Pool) (h : PoolInv p) :
    PoolInv (SetWorkers t p) := by
  rw [SetWorkers]
  split_ifs with h1 h2
  · exact inv_spawnWorkers _ _ h
  · exact inv_stopWorkers _ _ h
  · exact h

theorem reachable_inv {p : Pool} (h : PoolReachable p) : PoolInv p := by
  induction h with
  | init n => exact inv_SetWorkers n emptyPool inv_emptyPool
  | resize t _ ih => exact inv_SetWorkers t _ ih

/-- Convergence of one resize: on any pool satisfying the invariant, a
non-negative target is reached exactly. -/
theorem setWorkers_activeCount (p : Pool) (hp : PoolInv p) (t : Int)
    (ht : 0 ≤ t) : (SetWorkers t p).activeCount = t := by
  have hLen := hp.hLen
  rw [SetWorkers]
  split_ifs with h1 h2
  · rw [spawnWorkers_spec]
    simp only
    omega
  · rw [stopWorkers_spec _ _ _ rfl hLen]
    simp only
    omega
  · omega

/-- All channels still held after one further resize were never signalled
before the resize: growth allocates from `nextCh`, above every logged id. -/
theorem setWorkers_no_reuse (p : Pool) (h : PoolInv p) (t : Int) :
    ∀ c ∈ (SetWorkers t p).stopChannels, c ∉ p.sent := by
  intro c hc
  rw [SetWorkers] at hc
  split_ifs at hc with h1 h2
  · rw [spawnWorkers_spec] at hc
    dsimp only at hc
    rcases List.mem_append.mp hc with hc | hc
    · exact h.hNotSent c hc
    · simp only [List.mem_map, List.mem_range] at hc
      obtain ⟨i, hi, rfl⟩ := hc
      intro hsent
      have := h.hSentFresh _ hsent
      omega
  · rw [stopWorkers_spec _ _ _ rfl h.hLen] at hc
    dsimp only at hc
    exact h.hNotSent c ((List.take_sublist _ _).subset hc)
  · exact h.hNotSent c hc

/-- C1: Resize convergence — on every pool state reachable by a sequence of
resize calls, `SetWorkers(target)` with a non-negative target leaves
`GetActiveCount() == target`; and `New(counter, n)` synchronously resizes to
`n`, so `GetActiveCount() == n` immediately after construction. -/
theorem resize_convergence :
    (∀ p : Pool, PoolReachable p → ∀ t : Int, 0 ≤ t →
        GetActiveCount (SetWorkers t p) = t) ∧
    ∀ n : Int, 0 ≤ n → GetActiveCount (New n) = n :=
  ⟨fun p hp t ht => setWorkers_activeCount p (reachable_inv hp) t ht,
   fun n hn => setWorkers_activeCount emptyPool inv_emptyPool n hn⟩

theorem resize_convergence_witness :
    GetActiveCount (SetWorkers 7 (New 3)) = 7 ∧ GetActiveCount (New 3) = 3 :=
  ⟨resize_convergence.1 (New 3) (PoolReachable.init 3) 7 (by decide),
   resize_convergence.2 3 (by decide)⟩

/-- C2: No signal leak — on every reachable pool state (in particular after
repeated shrink/grow cycles) the stop-channel list has exactly
`activeCount` entries, holds no duplicates, holds no channel that was ever
signalled, and any later resize leaves only channels that were never
signalled before it (a later growth cannot reuse a stopped worker's
channel: fresh channels are allocated above every logged identifier). -/
theorem no_signal_leak :
    ∀ p : Pool, PoolReachable p →
      ((p.stopChannels.length : Int) = GetActiveCount p ∧
       p.stopChannels.Nodup ∧
       (∀ c ∈ p.stopChannels, c ∉ p.sent) ∧
       ∀ t : Int, ∀ c ∈ (SetWorkers t p).stopChannels, c ∉ p.sent) := by
  intro p hp
  have h := reachable_inv hp
  exact ⟨h.hLen.symm, h.hNodup, h.hNotSent, fun t => setWorkers_no_reuse p h t⟩

/-- The pool after the shrink/grow cycle 5 → 1 → 10 → 1 → 10 of the spec's
no-signal-leak test. -/
def cyclePool : Pool :=
  SetWorkers 10 (SetWorkers 1 (SetWorkers 10 (SetWorkers 1 (New 5))))

theorem no_signal_leak_witness :
    (cyclePool.stopChannels.length : Int) = GetActiveCount cyclePool :=
  (no_signal_leak cyclePool
    (PoolReachable.resize 10 (PoolReachable.resize 1 (PoolReachable.resize 10
      (PoolReachable.resize 1 (PoolReachable.init 5)))))).1

/-- C4: LIFO shrink policy — shrinking a reachable pool to a target
`0 ≤ target < activeCount` stops exactly `activeCount - target` workers,
namely the most recently spawned ones: the surviving channel list is the
prefix of the first `target` channels, the signals sent by the call are
exactly the dropped suffix in LIFO (reverse spawn) order, each of those
channels carries exactly one signal in the whole log, and the active count
drops to exactly `target`. -/
theorem lifo_shrink :
    ∀ p : Pool, PoolReachable p → ∀ t : Int, 0 ≤ t → t < GetActiveCount p →
      GetActiveCount (SetWorkers t p) = t ∧
      (SetWorkers t p).stopChannels = p.stopChannels.take t.toNat ∧
      (SetWorkers t p).sent = p.sent ++ (p.stopChannels.drop t.toNat).reverse ∧
      ((p.stopChannels.drop t.toNat).length : Int) = GetActiveCount p - t ∧
      ∀ c ∈ p.stopChannels.drop t.toNat, (SetWorkers t p).sent.count c = 1 := by
  intro p hp t ht hlt
  have h := reachable_inv hp
  have hLen := h.hLen
  have hbranch : SetWorkers t p = stopWorkers (p.activeCount - t) p := by
    rw [SetWorkers]
    rw [if_neg (by simp only [GetActiveCount] at hlt; omega),
        if_pos (by simp only [GetActiveCount] at hlt; omega)]
  simp only [GetActiveCount] at hlt ⊢
  rw [hbranch, stopWorkers_spec _ _ _ rfl hLen]
  have hkey : p.stopChannels.length -
      (min (p.activeCount - t) (p.stopChannels.length : Int)).toNat = t.toNat := by
    omega
  have hdropNodup : (p.stopChannels.drop t.toNat).Nodup :=
    (List.drop_sublist _ _).nodup h.hNodup
  refine ⟨by dsimp only; omega, by dsimp only; rw [hkey], by dsimp only; rw [hkey],
    by simp only [List.length_drop]; omega, ?_⟩
  intro c hc
  have hmem : c ∈ p.stopChannels := (List.drop_sublist _ _).subset hc
  dsimp only
  rw [hkey, List.count_append, List.count_reverse]
  rw [List.count_eq_zero.mpr (h.hNotSent c hmem), List.count_eq_one_of_mem hdropNodup hc]

theorem lifo_shrink_witness :
    GetActiveCount (SetWorkers 2 (New 5)) = 2 ∧
    (SetWorkers 2 (New 5)).stopChannels = (New 5).stopChannels.take (2 : Int).toNat :=
  have h := lifo_shrink (New 5) (PoolReachable.init 5) 2 (by decide) (by decide)
  ⟨h.1, h.2.1⟩

/-- Every non-positive target empties the pool: all live workers are
signalled (in LIFO order) and the bookkeeping is cleared. -/
theorem setWorkers_nonpos (p : Pool) (h : PoolInv p) (t : Int) (ht : t ≤ 0) :
    SetWorkers t p = ⟨[], 0, p.nextCh, p.sent ++ p.stopChannels.reverse⟩ := by
  have hLen := h.hLen
  rw [SetWorkers]
  split_ifs with h1 h2
  · exact absurd h1 (by omega)
  · rw [stopWorkers_spec _ _ _ rfl hLen]
    have hk : (min (p.activeCount - t) (p.stopChannels.length : Int)).toNat =
        p.stopChannels.length := by omega
    rw [hk]
    simp only [Nat.sub_self, List.take_zero, List.drop_zero, Nat.cast_zero]
  · have hlen0 : p.stopChannels.length = 0 := by omega
    have hnil : p.stopChannels = [] := List.length_eq_zero.mp hlen0
    refine Pool.ext hnil (by dsimp only; omega) rfl ?_
    rw [hnil]
    simp

/-- C9: a negative target is handled totally and clamps to zero — every
guarded index access in `stopWorkers` stays in range, all live workers are
stopped, the stop-channel list ends empty with `GetActiveCount() == 0`, and
the resulting pool state is identical to the one `SetWorkers(0)` yields. -/
theorem negative_target_clamps :
    ∀ p : Pool, PoolReachable p → ∀ t : Int, t < 0 →
      SetWorkers t p = SetWorkers 0 p ∧
      GetActiveCount (SetWorkers t p) = 0 ∧
      (SetWorkers t p).stopChannels = [] := by
  intro p hp t ht
  have h := reachable_inv hp
  rw [setWorkers_nonpos p h t (by omega), setWorkers_nonpos p h 0 (by omega)]
  exact ⟨rfl, rfl, rfl⟩

theorem negative_target_clamps_witness :
    SetWorkers (-2) (New 3) = SetWorkers 0 (New 3) ∧
    GetActiveCount (SetWorkers (-2) (New 3)) = 0 ∧
    (SetWorkers (-2) (New 3)).stopChannels = [] :=
  negative_target_clamps (New 3) (PoolReachable.init 3) (-2) (by decide)

/-! ## Worker loop (runWorker in worker/pool.go)

The private state of one worker goroutine is its floating-point accumulator
`v` (seeded by `rand.Float64()`) and its private operation counter `i`
(`var i uint64`; `i` is reset at every flush so it never exceeds 10^6 and
64-bit wraparound provably cannot occur).  The shared `*uint64` progress
counter is threaded explicitly.  One iteration of the `for { select ... } }`
loop either observes a pending stop signal and returns, or executes the
default branch. -/

/-- `v *= math.Pow(v, v)` — the hot floating-point operation, kept
opaque: no claim depends on the numeric value of `v`. -/
def burn (v : Float) : Float := v * Float.pow v v

/-- Private worker state: accumulator `v` and unflushed counter `i`. -/
structure WorkerState where
  v : Float
  i : Nat
  deriving Inhabited

/-- The `default:` branch of one `runWorker` loop iteration:
`i++; v *= math.Pow(v, v); if i%1_000_000 == 0
\x7b atomic.AddUint64(wp.counter, i); i = 0 \x7d`. -/
def burnStep (s : WorkerState × Nat) : WorkerState × Nat :=
  let i1 := s.1.i + 1
  let v1 := burn s.1.v
  if i1 % 1000000 = 0 then (⟨v1, 0⟩, s.2 + i1) else (⟨v1, i1⟩, s.2)

/-- One full `runWorker` loop iteration: the `select` first polls the stop
channel; a pending signal makes the worker return (`none`) with the shared
counter untouched; otherwise the default branch runs. -/
def runWorkerStep (stopPending : Bool) (w : WorkerState) (c : Nat) :
    Option WorkerState × Nat :=
  if stopPending then (none, c)
  else
    let s := burnStep (w, c)
    (some s.1, s.2)

/-- `m` consecutive uninterrupted loop iterations. -/
def runWorkerIter : Nat → WorkerState × Nat → WorkerState × Nat
  | 0, s => s
  | k + 1, s => runWorkerIter k (burnStep s)

theorem runWorkerIter_spec (m : Nat) :
    ∀ (j : Nat) (v : Float) (c : Nat), j < 1000000 → j + m ≤ 1000000 →
    runWorkerIter m (⟨v, j⟩, c) =
      (⟨Nat.iterate burn m v, if j + m = 1000000 then 0 else j + m⟩,
       if j + m = 1000000 then c + 1000000 else c) := by
  induction m with
  | zero =>
      intro j v c hj hm
      rw [runWorkerIter, if_neg (by omega), if_neg (by omega)]
      rfl
  | succ k ih =>
      intro j v c hj hm
      rw [runWorkerIter]
      by_cases hfl : j + 1 = 1000000
      · have hk0 : k = 0 := by omega
        subst hk0
        simp only [burnStep]
        rw [if_pos (by omega)]
        rw [runWorkerIter, if_pos (by omega), if_pos (by omega), hfl]
        rfl
      · have hcond : (j + 1) % 1000000 ≠ 0 := by omega
        simp only [burnStep]
        rw [if_neg hcond]
        rw [ih (j + 1) (burn v) c (by omega) (by omega),
          ← Function.iterate_succ_apply]
        have harith : j + 1 + k = j + (k + 1) := by omega
        rw [harith]

/-! ## Interleaving semantics for workers sharing the progress counter

`BurnSys` is the shared state: the process-wide `uint64` progress counter
and the list of worker goroutines, each with its private state, its
buffered stop channel (`stopPending`) and whether it has returned.  An
event is one atomic occurrence: a spawn (from `spawnWorkers`), a stop
signal send (from `stopWorkers`), or one loop iteration of one worker.
Render-loop reads do not mutate state, so an observation point is just a
position in the event list. -/

/-- One worker goroutine: private state, pending stop signal, returned? -/
structure WorkerSlot where
  st : WorkerState
  stopPending : Bool
  stopped : Bool

/-- Atomic events of the interleaved execution. -/
inductive BurnEv where
  | spawnW (v : Float)
  | signalW (k : Nat)
  | stepW (k : Nat)

/-- Replace the element at an index, if present. -/
def modifyAt (f : α → α) : Nat → List α → List α
  | _, [] => []
  | 0, a :: as => f a :: as
  | k + 1, a :: as => a :: modifyAt f k as

/-- Shared system state: progress counter plus worker goroutines. -/
structure BurnSys where
  counter : Nat
  workers : List WorkerSlot

/-- Small-step semantics of one event. -/
def sysStep (e : BurnEv) (s : BurnSys) : BurnSys :=
  match e with
  | .spawnW v => { s with workers := s.workers ++ [⟨⟨v, 0⟩, false, false⟩] }
  | .signalW k =>
      { s with workers :=
          modifyAt (fun u => { u with stopPending := true }) k s.workers }
  | .stepW k =>
      match s.workers.get? k with
      | none => s
      | some w =>
          if w.stopped then s
          else if w.stopPending then
            let wmark := modifyAt (fun u => { u with stopPending := false, stopped := true }) k s.workers
            { s with workers := wmark }
          else
            let r := burnStep (w.st, s.counter)
            { counter := r.2,
              workers := modifyAt (fun u => { u with st := r.1 }) k s.workers }

/-- Process start: counter zero, no workers. -/
def initSys : BurnSys := ⟨0, []⟩

/-- Run an event trace from process start. -/
def runSys (evs : List BurnEv) : BurnSys :=
  evs.foldl (fun s e => sysStep e s) initSys

theorem mem_modifyAt {f : α → α} :
    ∀ {k : Nat} {l : List α} {w : α}, w ∈ modifyAt f k l →
      w ∈ l ∨ ∃ u, u ∈ l ∧ w = f u := by
  intro k l
  induction l generalizing k with
  | nil => intro w hw; simp [modifyAt] at hw
  | cons a as ih =>
      intro w hw
      match k with
      | 0 =>
          rcases List.mem_cons.mp hw with h | h
          · exact Or.inr ⟨a, List.mem_cons_self a as, h⟩
          · exact Or.inl (List.mem_cons_of_mem a h)
      | k + 1 =>
          rcases List.mem_cons.mp hw with h | h
          · exact Or.inl (h ▸ List.mem_cons_self a as)
          · rcases ih h with h2 | ⟨u, hu, rfl⟩
            · exact Or.inl (List.mem_cons_of_mem a h2)
            · exact Or.inr ⟨u, List.mem_cons_of_mem a hu, rfl⟩

theorem burnStep_counter (w : WorkerState) (c : Nat) :
    (burnStep (w, c)).2 = c ∨ (burnStep (w, c)).2 = c + (w.i + 1) := by
  rw [burnStep]
  split
  · exact Or.inr rfl
  · exact Or.inl rfl

theorem burnStep_counter_flush (w : WorkerState) (c : Nat) (h : w.i < 1000000) :
    (burnStep (w, c)).2 = c ∨ (burnStep (w, c)).2 = c + 1000000 := by
  rw [burnStep]
  split
  · rename_i hc
    right
    simp only at hc ⊢
    omega
  · exact Or.inl rfl

theorem burnStep_i_lt (w : WorkerState) (c : Nat) (h : w.i < 1000000) :
    (burnStep (w, c)).1.i < 1000000 := by
  rw [burnStep]
  split
  · simp
  · rename_i hc
    simp only at hc ⊢
    omega

/-- System invariant: the shared counter is a multiple of 10^6 and every
worker's unflushed private counter is strictly below 10^6. -/
def SysInv (s : BurnSys) : Prop :=
  s.counter % 1000000 = 0 ∧ ∀ w ∈ s.workers, w.st.i < 1000000

theorem burnStep_le (w : WorkerState) (c : Nat) : c ≤ (burnStep (w, c)).2 := by
  rcases burnStep_counter w c with h | h <;> omega

theorem sysStep_counter_le (e : BurnEv) (s : BurnSys) :
    s.counter ≤ (sysStep e s).counter := by
  cases e with
  | spawnW v => exact Nat.le_refl _
  | signalW k => exact Nat.le_refl _
  | stepW k =>
      simp only [sysStep]
      cases hget : s.workers.get? k with
      | none => exact Nat.le_refl _
      | some w =>
          dsimp only
          by_cases h1 : w.stopped
          · rw [if_pos h1]
          · rw [if_neg h1]
            by_cases h2 : w.stopPending
            · rw [if_pos h2]
            · rw [if_neg h2]
              exact burnStep_le w.st s.counter

theorem sysInv_step (e : BurnEv) (s : BurnSys) (h : SysInv s) :
    SysInv (sysStep e s) := by
  obtain ⟨hc, hw⟩ := h
  cases e with
  | spawnW v =>
      refine ⟨hc, ?_⟩
      intro w hwmem
      rcases List.mem_append.mp hwmem with hm | hm
      · exact hw w hm
      · rw [List.mem_singleton] at hm
        subst hm
        norm_num
  | signalW k =>
      refine ⟨hc, ?_⟩
      intro w hwmem
      rcases mem_modifyAt hwmem with hm | ⟨u, hu, rfl⟩
      · exact hw w hm
      · exact hw u hu
  | stepW k =>
      simp only [sysStep]
      cases hget : s.workers.get? k with
      | none => exact ⟨hc, hw⟩
      | some w =>
          dsimp only
          have hwk : w ∈ s.workers := List.get?_mem hget
          by_cases h1 : w.stopped
          · rw [if_pos h1]
            exact ⟨hc, hw⟩
          · rw [if_neg h1]
            by_cases h2 : w.stopPending
            · rw [if_pos h2]
              refine ⟨hc, ?_⟩
              intro u humem
              rcases mem_modifyAt humem with hm | ⟨u2, hu2, rfl⟩
              · exact hw u hm
              · exact hw u2 hu2
            · rw [if_neg h2]
              constructor
              · dsimp only
                rcases burnStep_counter_flush w.st s.counter (hw w hwk) with hcc | hcc
                · rw [hcc]; exact hc
                · rw [hcc]; omega
              · intro u humem
                rcases mem_modifyAt humem with hm | ⟨u2, hu2, rfl⟩
                · exact hw u hm
                · exact burnStep_i_lt w.st s.counter (hw w hwk)

theorem foldl_inv (l : List BurnEv) (s : BurnSys) (hs : SysInv s) :
    SysInv (l.foldl (fun s e => sysStep e s) s) := by
  induction l generalizing s with
  | nil => exact hs
  | cons e t ih => exact ih _ (sysInv_step e s hs)

theorem runSys_inv (evs : List BurnEv) : SysInv (runSys evs) := by
  rw [runSys]
  refine foldl_inv evs initSys ⟨rfl, ?_⟩
  intro w hw
  simp [initSys] at hw

theorem runSys_append (pre post : List BurnEv) :
    runSys (pre ++ post) = post.foldl (fun s e => sysStep e s) (runSys pre) := by
  rw [runSys, runSys, List.foldl_append]

theorem foldl_counter_le (l : List BurnEv) (s : BurnSys) :
    s.counter ≤ (l.foldl (fun s e => sysStep e s) s).counter := by
  induction l generalizing s with
  | nil => exact Nat.le_refl _
  | cons e t ih => exact le_trans (sysStep_counter_le e s) (ih _)

/-- C3: Worker algorithm — one `runWorker` iteration first polls the stop
channel: a fired signal makes the worker return at once, leaving the shared
counter untouched (the partial private count, always < 1,000,000 in any
reachable system state, is discarded); otherwise the iteration computes
`v := v * pow(v, v)`, increments the private counter, and on every
1,000,000th iteration atomically adds the private counter to the shared
progress counter and resets it to 0 — so 1,000,000 uninterrupted
iterations from a fresh batch add exactly 1,000,000 to the counter. -/
theorem worker_algorithm :
    (∀ (w : WorkerState) (c : Nat), runWorkerStep true w c = (none, c)) ∧
    (∀ (w : WorkerState) (c : Nat),
        runWorkerStep false w c =
          (some ⟨burn w.v, if (w.i + 1) % 1000000 = 0 then 0 else w.i + 1⟩,
           if (w.i + 1) % 1000000 = 0 then c + (w.i + 1) else c)) ∧
    (∀ (w : WorkerState) (c : Nat), w.i < 1000000 → (w.i + 1) % 1000000 = 0 →
        runWorkerStep false w c = (some ⟨burn w.v, 0⟩, c + 1000000)) ∧
    (∀ (v : Float) (c : Nat),
        runWorkerIter 1000000 (⟨v, 0⟩, c) =
          (⟨Nat.iterate burn 1000000 v, 0⟩, c + 1000000)) ∧
    ∀ evs : List BurnEv, ∀ w ∈ (runSys evs).workers, w.st.i < 1000000 := by
  refine ⟨fun w c => rfl, ?_, ?_, ?_, fun evs => (runSys_inv evs).2⟩
  · intro w c
    by_cases hcnd : (w.i + 1) % 1000000 = 0 <;>
      simp [runWorkerStep, burnStep, hcnd]
  · intro w c h hmod
    have hone : w.i + 1 = 1000000 := by omega
    simp [runWorkerStep, burnStep, hmod, hone]
  · intro v c
    have h := runWorkerIter_spec 1000000 0 v c (by norm_num) (by norm_num)
    have e : (0 : Nat) + 1000000 = 1000000 := by norm_num
    rw [e, if_pos rfl, if_pos rfl] at h
    exact h

theorem worker_algorithm_witness :
    runWorkerStep false ⟨0.5, 999999⟩ 0 = (some ⟨burn 0.5, 0⟩, 0 + 1000000) :=
  worker_algorithm.2.2.1 ⟨0.5, 999999⟩ 0 (by norm_num) (by norm_num)

/-- C5: Counter monotonicity — along any interleaved trace of worker
spawns, stop signals and worker iterations, every atomic event changes the
shared progress counter by a non-negative addition (most events add 0, a
flush adds its batch), the counter is never reset, and hence the value the
render loop observes at any later point of the trace is at least the value
observed at any earlier point. -/
theorem counter_monotonicity :
    (∀ (e : BurnEv) (s : BurnSys), s.counter ≤ (sysStep e s).counter ∧
        ∃ d : Nat, (sysStep e s).counter = s.counter + d) ∧
    ∀ pre post : List BurnEv, (runSys pre).counter ≤ (runSys (pre ++ post)).counter := by
  constructor
  · intro e s
    have hle := sysStep_counter_le e s
    exact ⟨hle, (sysStep e s).counter - s.counter, by omega⟩
  · intro pre post
    rw [runSys_append]
    exact foldl_counter_le post (runSys pre)

/-- C10: Counter granularity — in any reachable system state a worker
iteration changes the shared counter by either 0 or exactly 1,000,000 (the
private counter is reset after each flush, so it is < 1,000,000 before the
increment and the flush branch fires exactly at 1,000,000); consequently
the shared counter is always a multiple of 1,000,000, and the per-tick
delta displayed as `ops=<N>M/s` is divided by 1,000,000 exactly. -/
theorem counter_granularity :
    (∀ (evs : List BurnEv) (k : Nat),
        (sysStep (BurnEv.stepW k) (runSys evs)).counter = (runSys evs).counter ∨
        (sysStep (BurnEv.stepW k) (runSys evs)).counter =
          (runSys evs).counter + 1000000) ∧
    (∀ evs : List BurnEv, (runSys evs).counter % 1000000 = 0) ∧
    (∀ evs : List BurnEv, ∀ w ∈ (runSys evs).workers, w.st.i < 1000000) ∧
    ∀ pre post : List BurnEv,
      ((runSys (pre ++ post)).counter - (runSys pre).counter) % 1000000 = 0 ∧
      ((runSys (pre ++ post)).counter - (runSys pre).counter) / 1000000 * 1000000 =
        (runSys (pre ++ post)).counter - (runSys pre).counter := by
  refine ⟨?_, fun evs => (runSys_inv evs).1, fun evs => (runSys_inv evs).2, ?_⟩
  · intro evs k
    have h := runSys_inv evs
    simp only [sysStep]
    cases hget : (runSys evs).workers.get? k with
    | none => exact Or.inl rfl
    | some w =>
        dsimp only
        by_cases h1 : w.stopped
        · rw [if_pos h1]
          exact Or.inl rfl
        · rw [if_neg h1]
          by_cases h2 : w.stopPending
          · rw [if_pos h2]
            exact Or.inl rfl
          · rw [if_neg h2]
            exact burnStep_counter_flush w.st _ (h.2 w (List.get?_mem hget))
  · intro pre post
    have h1 := (runSys_inv pre).1
    have h2 := (runSys_inv (pre ++ post)).1
    have hle : (runSys pre).counter ≤ (runSys (pre ++ post)).counter := by
      rw [runSys_append]
      exact foldl_counter_le post (runSys pre)
    constructor
    · omega
    · omega

theorem counter_granularity_witness :
    (⟨⟨0.5, 0⟩, false, false⟩ : WorkerSlot).st.i < 1000000 :=
  counter_granularity.2.2.1 [BurnEv.spawnW 0.5] ⟨⟨0.5, 0⟩, false, false⟩
    (List.Mem.head _)

/-! ## TUI key handling (part_001, handleKeyPress)

`+`/`=` resize to `GetActiveCount() + 1`; `-`/`_` compute
`newCount := GetActiveCount() - 1` and resize only when `newCount >= 1`;
`q`/`ctrl+c` return `tea.Quit` (second component `true`) without touching
the pool; any other key is ignored. -/

/-- The key classes distinguished by the `switch msg.String()`. -/
inductive TuiKey where
  | plusKey
  | equalKey
  | minusKey
  | underscoreKey
  | quitKey
  | otherKey

/-- `handleKeyPress` from part_001: returns the pool after any resize the
key triggers, and whether the key quits the TUI. -/
def handleKeyPress (k : TuiKey) (p : Pool) : Pool × Bool :=
  match k with
  | .quitKey => (p, true)
  | .plusKey => (SetWorkers (GetActiveCount p + 1) p, false)
  | .equalKey => (SetWorkers (GetActiveCount p + 1) p, false)
  | .minusKey =>
      if 1 ≤ GetActiveCount p - 1 then (SetWorkers (GetActiveCount p - 1) p, false)
      else (p, false)
  | .underscoreKey =>
      if 1 ≤ GetActiveCount p - 1 then (SetWorkers (GetActiveCount p - 1) p, false)
      else (p, false)
  | .otherKey => (p, false)

/-- The pool after a sequence of key presses. -/
def runKeys (ks : List TuiKey) (p : Pool) : Pool :=
  ks.foldl (fun q k => (handleKeyPress k q).1) p

theorem handleKeyPress_floor (k : TuiKey) (p : Pool) (hp : PoolReachable p)
    (h1 : 1 ≤ p.activeCount) :
    PoolReachable (handleKeyPress k p).1 ∧ 1 ≤ (handleKeyPress k p).1.activeCount := by
  have hinv := reachable_inv hp
  cases k with
  | quitKey => exact ⟨hp, h1⟩
  | otherKey => exact ⟨hp, h1⟩
  | plusKey =>
      refine ⟨PoolReachable.resize _ hp, ?_⟩
      have hc := setWorkers_activeCount p hinv (GetActiveCount p + 1)
        (by simp only [GetActiveCount]; omega)
      simp only [handleKeyPress]
      rw [hc]
      simp only [GetActiveCount]
      omega
  | equalKey =>
      refine ⟨PoolReachable.resize _ hp, ?_⟩
      have hc := setWorkers_activeCount p hinv (GetActiveCount p + 1)
        (by simp only [GetActiveCount]; omega)
      simp only [handleKeyPress]
      rw [hc]
      simp only [GetActiveCount]
      omega
  | minusKey =>
      simp only [handleKeyPress]
      by_cases hge : 1 ≤ GetActiveCount p - 1
      · rw [if_pos hge]
        refine ⟨PoolReachable.resize _ hp, ?_⟩
        have hc := setWorkers_activeCount p hinv (GetActiveCount p - 1)
          (by simp only [GetActiveCount] at hge ⊢; omega)
        rw [hc]
        exact hge
      · rw [if_neg hge]
        exact ⟨hp, h1⟩
  | underscoreKey =>
      simp only [handleKeyPress]
      by_cases hge : 1 ≤ GetActiveCount p - 1
      · rw [if_pos hge]
        refine ⟨PoolReachable.resize _ hp, ?_⟩
        have hc := setWorkers_activeCount p hinv (GetActiveCount p - 1)
          (by simp only [GetActiveCount] at hge ⊢; omega)
        rw [hc]
        exact hge
      · rw [if_neg hge]
        exact ⟨hp, h1⟩

theorem runKeys_floor (ks : List TuiKey) :
    ∀ p : Pool, PoolReachable p → 1 ≤ p.activeCount →
      PoolReachable (runKeys ks p) ∧ 1 ≤ (runKeys ks p).activeCount := by
  induction ks with
  | nil => intro p hp h1; exact ⟨hp, h1⟩
  | cons k t ih =>
      intro p hp h1
      have hstep := handleKeyPress_floor k p hp h1
      exact ih _ hstep.1 hstep.2

/-- C8: Minimum worker floor — on a reachable pool with exactly one active
worker, a decrease key (`-` or `_`) issues no resize and leaves the pool
untouched; and starting from any reachable pool with at least one worker,
no sequence of key presses (increase, decrease, quit or other) can drive
the active count to 0 through the key handler. -/
theorem min_worker_floor :
    ∀ p : Pool, PoolReachable p →
      (GetActiveCount p = 1 →
        handleKeyPress TuiKey.minusKey p = (p, false) ∧
        handleKeyPress TuiKey.underscoreKey p = (p, false)) ∧
      (1 ≤ GetActiveCount p →
        ∀ ks : List TuiKey, 1 ≤ GetActiveCount (runKeys ks p)) := by
  intro p hp
  constructor
  · intro h1
    simp only [GetActiveCount] at h1
    constructor <;>
      · simp only [handleKeyPress, GetActiveCount, h1]
        rw [if_neg (by omega)]
  · intro h1 ks
    exact (runKeys_floor ks p hp (by simpa [GetActiveCount] using h1)).2

theorem min_worker_floor_witness :
    handleKeyPress TuiKey.minusKey (New 1) = (New 1, false) ∧
    1 ≤ GetActiveCount (runKeys [TuiKey.minusKey, TuiKey.minusKey] (New 1)) :=
  ⟨((min_worker_floor (New 1) (PoolReachable.init 1)).1 (by decide)).1,
   (min_worker_floor (New 1) (PoolReachable.init 1)).2 (by decide)
     [TuiKey.minusKey, TuiKey.minusKey]⟩

/-! ## Render-loop termination timing (main.go, part_000, part_001)

Each loop performs its duration check once per 1-second tick, in tick
order, and returns at the first satisfied check.  `time.Duration` values
are int64 nanosecond counts compared exactly, modelled as `Int`; the
legacy loop of part_000 compares the float64 `time.Since(start).Seconds()`
against `float64(*duration)` — modelled exactly over `ℚ` (at the boundary
instants relevant here both values are small integers, which float64
represents exactly). -/

/-- main.go: `if since >= *duration \x7b return \x7d`. -/
def mainLoopQuit (since dur : Int) : Bool := decide (dur ≤ since)

/-- part_001 `handleTick`: `if time.Since(m.startTime) >= m.duration
\x7b return m, tea.Quit \x7d`. -/
def tuiTickQuit (elapsed dur : Int) : Bool := decide (dur ≤ elapsed)

/-- part_000: `if sec > float64(*duration) \x7b return \x7d` — strictly
greater. -/
def oldLoopQuit (sec : ℚ) (dur : Int) : Bool := decide ((dur : ℚ) < sec)

/-- Index of the tick at which a loop returns: the first tick whose check
fires (`none` when the trace ends with the loop still running). -/
def firstQuitIdx (q : α → Bool) : List α → Option Nat
  | [] => none
  | t :: ts => if q t then some 0 else (firstQuitIdx q ts).map (· + 1)

theorem firstQuitIdx_eq_some {q : α → Bool} :
    ∀ (l : List α) (i : Nat),
      firstQuitIdx q l = some i ↔
        ∃ pre t post, l = pre ++ t :: post ∧ pre.length = i ∧ q t = true ∧
          ∀ u ∈ pre, q u = false := by
  intro l
  induction l with
  | nil =>
      intro i
      constructor
      · intro h
        simp [firstQuitIdx] at h
      · rintro ⟨pre, t, post, heq, -, -, -⟩
        exact absurd heq.symm (List.append_ne_nil_of_right_ne_nil pre (by simp))
  | cons a as ih =>
      intro i
      by_cases hq : q a
      · rw [firstQuitIdx, if_pos hq]
        constructor
        · intro h
          refine ⟨[], a, as, rfl, ?_, hq, by simp⟩
          simpa using Option.some_inj.mp h
        · rintro ⟨pre, t, post, heq, hlen, hqt, hpre⟩
          cases pre with
          | nil =>
              simp only [List.nil_append, List.cons.injEq] at heq
              simp only [List.length_nil] at hlen
              rw [← hlen]
          | cons b bs =>
              simp only [List.cons_append, List.cons.injEq] at heq
              exact absurd (heq.1 ▸ hq) (by
                rw [hpre b (List.mem_cons_self b bs)]
                simp)
      · rw [firstQuitIdx, if_neg hq]
        constructor
        · intro h
          rcases Option.map_eq_some'.mp h with ⟨j, hj, rfl⟩
          rcases (ih j).mp hj with ⟨pre, t, post, heq, hlen, hqt, hpre⟩
          refine ⟨a :: pre, t, post, by rw [heq]; rfl, by simp [hlen], hqt, ?_⟩
          intro u hu
          rcases List.mem_cons.mp hu with rfl | hu
          · exact Bool.not_eq_true _ ▸ (by simpa using hq)
          · exact hpre u hu
        · rintro ⟨pre, t, post, heq, hlen, hqt, hpre⟩
          cases pre with
          | nil =>
              simp only [List.nil_append, List.cons.injEq] at heq
              exact absurd (heq.1 ▸ hqt) (by simpa using hq)
          | cons b bs =>
              simp only [List.cons_append, List.cons.injEq] at heq
              have hbs : firstQuitIdx q as = some bs.length :=
                (ih bs.length).mpr ⟨bs, t, post, heq.2, rfl, hqt,
                  fun u hu => hpre u (List.mem_cons_of_mem b hu)⟩
              rw [hbs]
              simp only [Option.map_some']
              simp only [List.length_cons] at hlen
              rw [← hlen]

/-- C6 counterexample: with `configuredDuration = 3` (seconds) and ticks at
elapsed 1 s, 2 s, 3 s, 4 s, the claim demands termination at the first tick
with `elapsed >= 3` — index 2, where elapsed equals the duration exactly —
but the legacy line loop of part_000 (`if sec > float64(*duration)`) does
not fire at equality and only returns at index 3. -/
theorem termination_timing_cex :
    oldLoopQuit 3 3 = false ∧
    firstQuitIdx (fun e => oldLoopQuit e 3) [1, 2, 3, 4] = some 3 ∧
    firstQuitIdx (fun e : ℚ => decide (((3 : Int) : ℚ) ≤ e)) [1, 2, 3, 4] = some 2 := by
  refine ⟨?_, ?_, ?_⟩ <;> decide

/-- C6 (amended): the line loop of main.go and the TUI `handleTick` of
part_001 terminate exactly at the first tick whose elapsed time reaches the
configured duration (`elapsed >= duration`, equality included) and never at
an earlier tick; the legacy loop of part_000 terminates exactly at the
first tick whose elapsed seconds strictly exceed the duration, so an
exact-equality tick does not terminate it. -/
theorem termination_timing :
    (∀ (dur : Int) (ticks : List Int) (i : Nat),
        firstQuitIdx (fun e => mainLoopQuit e dur) ticks = some i ↔
          ∃ pre t post, ticks = pre ++ t :: post ∧ pre.length = i ∧
            dur ≤ t ∧ ∀ u ∈ pre, u < dur) ∧
    (∀ dur since : Int, mainLoopQuit since dur = true ↔ dur ≤ since) ∧
    (∀ (dur : Int) (ticks : List Int) (i : Nat),
        firstQuitIdx (fun e => tuiTickQuit e dur) ticks = some i ↔
          ∃ pre t post, ticks = pre ++ t :: post ∧ pre.length = i ∧
            dur ≤ t ∧ ∀ u ∈ pre, u < dur) ∧
    (∀ dur elapsed : Int, tuiTickQuit elapsed dur = true ↔ dur ≤ elapsed) ∧
    ∀ (dur : Int) (secs : List ℚ) (i : Nat),
      firstQuitIdx (fun e => oldLoopQuit e dur) secs = some i ↔
        ∃ pre t post, secs = pre ++ t :: post ∧ pre.length = i ∧
          (dur : ℚ) < t ∧ ∀ u ∈ pre, u ≤ (dur : ℚ) := by
  refine ⟨?_, ?_, ?_, ?_, ?_⟩
  · intro dur ticks i
    rw [firstQuitIdx_eq_some]
    simp only [mainLoopQuit, decide_eq_true_eq, decide_eq_false_iff_not, not_le]
  · intro dur since
    simp [mainLoopQuit]
  · intro dur ticks i
    rw [firstQuitIdx_eq_some]
    simp only [tuiTickQuit, decide_eq_true_eq, decide_eq_false_iff_not, not_le]
  · intro dur elapsed
    simp [tuiTickQuit]
  · intro dur secs i
    rw [firstQuitIdx_eq_some]
    simp only [oldLoopQuit, decide_eq_true_eq, decide_eq_false_iff_not, not_lt]

/-! ## Line-mode output formatting (main.go, formatHardwareStats)

`HardwareStats` float64 fields are modelled over `ℚ`; the decimal
formatting verbs only matter to the claims through the literal segment
prefixes, so ties of `%.0f`/`%.1f` rounding are modelled with `round`
(Go rounds ties to even; no claim depends on tie behaviour). -/

/-- The `HardwareStats` struct of main.go. -/
structure HardwareStats where
  CPUFreqPct : ℚ
  CPUFreqCur : Int
  CPUFreqMax : Int
  Temperature : ℚ
  FanRPMs : List Int

/-- Rendering of the `%.0f` verb over the ℚ model. -/
def fmtF0 (x : ℚ) : String := toString (round x)

/-- Rendering of the `%.1f` verb over the ℚ model. -/
def fmtF1 (x : ℚ) : String :=
  let n : Int := round (x * 10)
  toString (n / 10) ++ "." ++ toString (n % 10)

/-- `fmt.Sprintf("cpu=%d/%dMHz (%.0f%%)", cur, max, pct)`. -/
def cpuSegment (s : HardwareStats) : String :=
  "cpu=" ++ toString s.CPUFreqCur ++ "/" ++ toString s.CPUFreqMax ++
    "MHz (" ++ fmtF0 s.CPUFreqPct ++ "%)"

/-- `fmt.Sprintf("temp=%.1fC", temperature)`. -/
def tempSegment (s : HardwareStats) : String :=
  "temp=" ++ fmtF1 s.Temperature ++ "C"

/-- `fmt.Sprintf("fans=%sRPM", strings.Join(fanStrs, ","))`. -/
def fansSegment (s : HardwareStats) : String :=
  "fans=" ++ String.intercalate "," (s.FanRPMs.map (fun r => toString r)) ++ "RPM"

/-- `formatHardwareStats` from main.go: build `parts` by successive
conditional appends, then return `""` for no parts and
`" | " + strings.Join(parts, " | ")` otherwise. -/
def formatHardwareStats (s : HardwareStats) : String :=
  let parts : List String := []
  let parts := if 0 < s.CPUFreqMax then parts ++ [cpuSegment s] else parts
  let parts := if 0 < s.Temperature then parts ++ [tempSegment s] else parts
  let parts := if 0 < s.FanRPMs.length then parts ++ [fansSegment s] else parts
  if parts.length = 0 then "" else " | " ++ String.intercalate " | " parts

/-- Declarative list of the present segments, in the fixed cpu, temp,
fans order. -/
def hwSegments (s : HardwareStats) : List String :=
  (if 0 < s.CPUFreqMax then [cpuSegment s] else []) ++
  (if 0 < s.Temperature then [tempSegment s] else []) ++
  (if 0 < s.FanRPMs.length then [fansSegment s] else [])

theorem cpu_ne_temp (a b : HardwareStats) : cpuSegment a ≠ tempSegment b := by
  intro h
  have hd := congrArg String.data h
  rw [cpuSegment, tempSegment] at hd
  simp only [String.data_append] at hd
  simp only [List.cons_append] at hd
  injection hd with h1 _
  exact absurd h1 (by decide)

theorem cpu_ne_fans (a b : HardwareStats) : cpuSegment a ≠ fansSegment b := by
  intro h
  have hd := congrArg String.data h
  rw [cpuSegment, fansSegment] at hd
  simp only [String.data_append] at hd
  simp only [List.cons_append] at hd
  injection hd with h1 _
  exact absurd h1 (by decide)

theorem temp_ne_fans (a b : HardwareStats) : tempSegment a ≠ fansSegment b := by
  intro h
  have hd := congrArg String.data h
  rw [tempSegment, fansSegment] at hd
  simp only [String.data_append] at hd
  simp only [List.cons_append] at hd
  injection hd with h1 _
  exact absurd h1 (by decide)

/-- C7: Line-mode output formatting — the rendered hardware suffix equals
the `" | "`-intercalated list of exactly the present segments in the fixed
cpu, temp, fans order, prefixed by a leading `" | "`; the `cpu=` segment is
present exactly when `CPUFreqMax > 0`, the `temp=` segment exactly when
`Temperature > 0`, the `fans=` segment exactly when the fan list is
non-empty (each omission removing its leading separator with it), and when
all three are absent the suffix is the empty string. -/
theorem formatHardwareStats_spec :
    ∀ s : HardwareStats,
      formatHardwareStats s =
        (if hwSegments s = [] then ""
         else " | " ++ String.intercalate " | " (hwSegments s)) ∧
      hwSegments s =
        (if 0 < s.CPUFreqMax then [cpuSegment s] else []) ++
        (if 0 < s.Temperature then [tempSegment s] else []) ++
        (if 0 < s.FanRPMs.length then [fansSegment s] else []) ∧
      (cpuSegment s ∈ hwSegments s ↔ 0 < s.CPUFreqMax) ∧
      (tempSegment s ∈ hwSegments s ↔ 0 < s.Temperature) ∧
      (fansSegment s ∈ hwSegments s ↔ s.FanRPMs ≠ []) ∧
      (s.CPUFreqMax ≤ 0 → s.Temperature ≤ 0 → s.FanRPMs = [] →
        formatHardwareStats s = "") := by
  intro s
  have hfmt : formatHardwareStats s =
      (if hwSegments s = [] then ""
       else " | " ++ String.intercalate " | " (hwSegments s)) := by
    rw [formatHardwareStats, hwSegments]
    by_cases h1 : 0 < s.CPUFreqMax <;> by_cases h2 : 0 < s.Temperature <;>
      by_cases h3 : 0 < s.FanRPMs.length <;>
        simp [h1, h2, h3]
  refine ⟨hfmt, rfl, ?_, ?_, ?_, ?_⟩
  · rw [hwSegments]
    by_cases h1 : 0 < s.CPUFreqMax <;> by_cases h2 : 0 < s.Temperature <;>
      by_cases h3 : 0 < s.FanRPMs.length <;>
        simp [h1, h2, h3, cpu_ne_temp, cpu_ne_fans]
  · rw [hwSegments]
    by_cases h1 : 0 < s.CPUFreqMax <;> by_cases h2 : 0 < s.Temperature <;>
      by_cases h3 : 0 < s.FanRPMs.length <;>
        simp [h1, h2, h3, (cpu_ne_temp s s).symm, temp_ne_fans]
  · rw [hwSegments, ← List.length_pos]
    by_cases h1 : 0 < s.CPUFreqMax <;> by_cases h2 : 0 < s.Temperature <;>
      by_cases h3 : 0 < s.FanRPMs.length <;>
        simp [h1, h2, h3, (cpu_ne_fans s s).symm, (temp_ne_fans s s).symm]
  · intro hc ht hf
    rw [hfmt, if_pos]
    rw [hwSegments]
    rw [if_neg (by omega), if_neg (by exact not_lt.mpr ht), if_neg (by simp [hf])]
    rfl

theorem formatHardwareStats_spec_witness :
    formatHardwareStats ⟨0, 0, 0, 0, []⟩ = "" :=
  (formatHardwareStats_spec ⟨0, 0, 0, 0, []⟩).2.2.2.2.2 (by norm_num) (by norm_num) rfl
